import Mathlib

/-!
Verification of the packet-output buffer of `src/buffer.h`
(the `const struct BufferClass Buffer` object of the server framework).

`src/` ships the interface `buffer.h` and the Makefile; the
implementation translation unit `buffer.c` that the Makefile lists is
not among the given sources.  The operational behaviour is therefore
modelled from the specification (data model section 3, operations
section 4.1, ordering and error rules of sections 5 and 7), which was
written against the full repository, and every such definition says so
in its doc comment.

Bytes are natural numbers, payloads are byte lists, and the writing
hook installed through `set_whook` (or the default direct write, which
obeys the same contract) is a function from the offered byte block to
the signed count it reports.
-/

/-- Modelled from the spec: the payload of one queued packet (missing
`buffer.c`, data model of section 3) — an in-memory byte range (`mem`,
the flag records that the buffer owns the memory and must free it once
sent), an open file streamed chunk by chunk (`file`, carrying the bytes
still to be read from it), or the close sentinel that a null
`write_move` or `close_when_done` enqueues (`close`). -/
inductive Payload where
  | mem (data : List Nat) (owned : Bool)
  | file (content : List Nat)
  | close
deriving DecidableEq

/-- Bytes carried by a payload; the close sentinel carries none. -/
def Payload.bytes : Payload → List Nat
  | .mem d _ => d
  | .file c => c
  | .close => []

/-- Modelled from the spec: one scheduled unit of output (missing
`buffer.c`, section 3) — a payload plus the offset of the bytes of it
already handed to the sink (the explicit cursor of section 9). -/
structure Packet where
  payload : Payload
  sent : Nat
deriving DecidableEq

/-- Unsent bytes of a packet. -/
def Packet.remaining (p : Packet) : List Nat := p.payload.bytes.drop p.sent

/-- Modelled from the spec: the block offered to the writing hook for the
head packet — the whole unsent suffix for a memory packet (flush step 2
of section 4.1), and for a file packet only the unsent part of the
current chunk of size `C` (flush step 3). -/
def Packet.offer (C : Nat) (p : Packet) : List Nat :=
  match p.payload with
  | .mem d _ => d.drop p.sent
  | .file c => (c.take (C * (p.sent / C) + C)).drop p.sent
  | .close => []

/-- Modelled from the spec: 1 when serving this packet now requires
reading a fresh chunk from the file (flush step 3 of section 4.1 reads
a chunk "into a transient buffer if not already buffered", so a chunk
already begun is not read again), else 0. -/
def Packet.chunkReadCount (C : Nat) (p : Packet) : Nat :=
  match p.payload with
  | .file _ => if p.sent % C = 0 then 1 else 0
  | _ => 0

/-- A writing hook (`set_whook` contract of section 4.1): given the
offered bytes it returns the `ssize_t` count it consumed — negative
means fatal, 0 means no progress now but the connection is viable. -/
abbrev Hook := List Nat → Int

/-- The always-writable sink: a hook that consumes everything offered. -/
def alwaysHook : Hook := fun d => (d.length : Int)

/-- Result of the internal send loop of `flush`. -/
structure LoopOut where
  fatal : Bool
  sent : Nat
  queue : List Packet
  hitClose : Bool
  wire : List Nat
  reads : Nat
deriving DecidableEq

/-- Fuel that always suffices for the send loop: every iteration either
consumes at least one unsent byte or pops a packet. -/
def loopMeasure (q : List Packet) : Nat :=
  (q.map (fun p => p.remaining.length)).sum + q.length

/-- Modelled from the spec: the core send loop of `flush` (missing
`buffer.c`, section 4.1 steps 1 to 4).  Already-complete packets are
popped (a memory packet is freed there if owned, an exhausted file is
closed there); the close sentinel stops the loop, is popped, and
signals close (section 3); otherwise the unsent block of the head
packet is offered to the hook: a negative result is fatal and stops
everything with the queue as it stands, 0 stops with no progress, and a
positive count — clamped to what was offered, as section 9 directs for
an over-reporting hook — advances the head offset; a short write ends
the call, a fully consumed block continues with the next chunk or
packet.  Structured on fuel; `loopMeasure` fuel is always enough. -/
def flushLoop (h : Hook) (C : Nat) : Nat → List Packet → LoopOut
  | 0, q => ⟨false, 0, q, false, [], 0⟩
  | _ + 1, [] => ⟨false, 0, [], false, [], 0⟩
  | fuel + 1, p :: rest =>
    match p.payload with
    | .close => ⟨false, 0, rest, true, [], 0⟩
    | _ =>
      if p.offer C = [] then flushLoop h C fuel rest
      else if h (p.offer C) < 0 then
        ⟨true, 0, p :: rest, false, [], p.chunkReadCount C⟩
      else if h (p.offer C) = 0 then
        ⟨false, 0, p :: rest, false, [], p.chunkReadCount C⟩
      else if (h (p.offer C)).toNat < (p.offer C).length then
        ⟨false, (h (p.offer C)).toNat,
         ⟨p.payload, p.sent + (h (p.offer C)).toNat⟩ :: rest, false,
         (p.offer C).take (h (p.offer C)).toNat, p.chunkReadCount C⟩
      else
        let r := flushLoop h C fuel (⟨p.payload, p.sent + (p.offer C).length⟩ :: rest)
        ⟨r.fatal, (p.offer C).length + r.sent, r.queue, r.hitClose,
         p.offer C ++ r.wire, p.chunkReadCount C + r.reads⟩

/-- Modelled from the spec: the packet buffer object (missing
`buffer.c`, section 3) — the owning server context passed through to
the hook, the ordered packet queue (head = packet being sent), and the
flag set once the close sentinel has been reached, after which no
further write is attempted.  The mutex of the real object is not
modelled: this embedding is sequential. -/
structure PacketBuffer where
  owner : Nat
  queue : List Packet
  closed : Bool
deriving DecidableEq

namespace Buffer

/-- Modelled from the spec: `create(owner)` (missing `buffer.c`,
section 4.1, declared `void *(*create)(server_pt owner)` in
`buffer.h`) — a fresh empty buffer bound to the owning server context;
no packet exists yet and nothing is pre-marked as sent. -/
def create (owner : Nat) : PacketBuffer := ⟨owner, [], false⟩

/-- Modelled from the spec: `write` (missing `buffer.c`, section 4.1) —
copy `data` into a buffer-owned block appended as a packet at the tail. -/
def write (b : PacketBuffer) (data : List Nat) : PacketBuffer :=
  { b with queue := b.queue ++ [⟨.mem data true, 0⟩] }

/-- Modelled from the spec: `write_move` (missing `buffer.c`,
section 4.1) — take ownership of `data` and append it as a packet; a
null pointer (`none`) or a zero-length owned block is the close
sentinel, equivalent to `close_when_done`. -/
def write_move (b : PacketBuffer) (data : Option (List Nat)) : PacketBuffer :=
  match data with
  | none => { b with queue := b.queue ++ [⟨.close, 0⟩] }
  | some d =>
    if d = [] then { b with queue := b.queue ++ [⟨.close, 0⟩] }
    else { b with queue := b.queue ++ [⟨.mem d true, 0⟩] }

/-- Modelled from the spec: `write_next` (missing `buffer.c`,
section 4.1) — copy `data` and insert it right after the in-flight head
packet (one with bytes already handed to the sink), or at the head when
nothing is in flight; no packet is ever split. -/
def write_next (b : PacketBuffer) (data : List Nat) : PacketBuffer :=
  match b.queue with
  | [] => { b with queue := [⟨.mem data true, 0⟩] }
  | p :: rest =>
    if 0 < p.sent then { b with queue := p :: ⟨.mem data true, 0⟩ :: rest }
    else { b with queue := ⟨.mem data true, 0⟩ :: p :: rest }

/-- Modelled from the spec: `write_move_next` (missing `buffer.c`,
section 4.1) — the ownership and sentinel semantics of `write_move`
with the placement rule of `write_next`. -/
def write_move_next (b : PacketBuffer) (data : Option (List Nat)) : PacketBuffer :=
  match b.queue with
  | [] => { b with queue := [movePacket data] }
  | p :: rest =>
    if 0 < p.sent then { b with queue := p :: movePacket data :: rest }
    else { b with queue := movePacket data :: p :: rest }
where
  movePacket : Option (List Nat) → Packet
    | none => ⟨.close, 0⟩
    | some d => if d = [] then ⟨.close, 0⟩ else ⟨.mem d true, 0⟩

/-- Modelled from the spec: `sendfile` (missing `buffer.c`,
section 4.1) — take ownership of the open file (its still-unread
contents) and append it as a file-backed packet streamed chunk by
chunk; closing the file is modelled by the packet leaving the queue. -/
def sendfile (b : PacketBuffer) (content : List Nat) : PacketBuffer :=
  { b with queue := b.queue ++ [⟨.file content, 0⟩] }

/-- Modelled from the spec: `close_when_done` (missing `buffer.c`,
section 4.1) — append the close sentinel at the tail, equivalent to a
null `write_move`. -/
def close_when_done (b : PacketBuffer) : PacketBuffer :=
  { b with queue := b.queue ++ [⟨.close, 0⟩] }

/-- Modelled from the spec: `clear` (missing `buffer.c`, section 4.1) —
release every queued packet (closing any open file), discard the queue
and reset the close flag (and the hook, which here is a `flush`
argument). -/
def clear (b : PacketBuffer) : PacketBuffer :=
  { b with queue := [], closed := false }

/-- Modelled from the spec: `is_empty` (missing `buffer.c`,
section 4.1) — true iff no packet, hence also no open file, is queued. -/
def is_empty (b : PacketBuffer) : Bool := b.queue.isEmpty

/-- Outcome of one `flush` call: the `ssize_t` return value, the buffer
afterwards, whether the caller is being signalled to close the
connection now, the bytes the sink consumed during the call, and the
number of file chunk reads performed. -/
structure FlushResult where
  ret : Int
  buf : PacketBuffer
  sclose : Bool
  wire : List Nat
  reads : Nat
deriving DecidableEq

/-- Modelled from the spec: `flush` (missing `buffer.c`, section 4.1) —
once the close sentinel has been reached no further write is attempted
and the caller keeps being told to close; otherwise the send loop runs
with the installed hook `h` and chunk size `C`, and the call returns -1
on a fatal hook result and the count of bytes consumed otherwise. -/
def flush (h : Hook) (C : Nat) (b : PacketBuffer) : FlushResult :=
  if b.closed then ⟨0, b, true, [], 0⟩
  else
    let r := flushLoop h C (loopMeasure b.queue + 1) b.queue
    ⟨if r.fatal then -1 else (r.sent : Int),
     { b with queue := r.queue, closed := r.hitClose },
     r.hitClose, r.wire, r.reads⟩

end Buffer

/-- A memory packet, as a claim quantifies over it: the packet `write`
builds from a payload, nothing sent yet. -/
def memQueue (ps : List (List Nat)) : List Packet :=
  ps.map fun d => ⟨Payload.mem d true, 0⟩

/-- One enqueue step of a `write` / `write_move` call sequence: the flag
selects `write_move`. -/
def enqOp (b : PacketBuffer) (x : Bool × List Nat) : PacketBuffer :=
  if x.1 then Buffer.write_move b (some x.2) else Buffer.write b x.2

/-- True iff the packet is an in-memory one. -/
def isMemPkt (p : Packet) : Bool :=
  match p.payload with
  | .mem _ _ => true
  | _ => false

/-- Advance the head packet of a queue by `m` bytes. -/
def advHead (m : Nat) : List Packet → List Packet
  | [] => []
  | p :: rest => ⟨p.payload, p.sent + m⟩ :: rest

/-- First `m` unsent bytes of the head packet of a queue. -/
def headRemTake (m : Nat) : List Packet → List Nat
  | [] => []
  | p :: _ => p.remaining.take m

/-- A two-packet buffer used as concrete refutation input. -/
def bTwo : PacketBuffer := Buffer.write (Buffer.write (Buffer.create 0) [1]) [2]

/-- A hook that consumes everything except the block `[2]`, on which it
reports a fatal error. -/
def hookFatalOn2 : Hook := fun d => if d = [2] then (-1 : Int) else (d.length : Int)

/-- A hook that consumes everything except the block `[2]`, on which it
reports no progress. -/
def hookBlockOn2 : Hook := fun d => if d = [2] then 0 else (d.length : Int)

theorem flushLoop_nil (h : Hook) (C fuel : Nat) :
    flushLoop h C fuel [] = ⟨false, 0, [], false, [], 0⟩ := by
  cases fuel <;> rfl

theorem loopMeasure_cons (p : Packet) (q : List Packet) :
    loopMeasure (p :: q) = p.remaining.length + loopMeasure q + 1 := by
  simp [loopMeasure]; omega

theorem flushLoop_always_mems (C : Nat) :
    ∀ fuel (mems rest : List Packet), loopMeasure (mems ++ rest) < fuel →
      (∀ p ∈ mems, isMemPkt p = true) →
      (rest = [] ∨ ∃ q2 rest2, rest = q2 :: rest2 ∧ q2.payload = Payload.close) →
      flushLoop alwaysHook C fuel (mems ++ rest)
        = ⟨false, (mems.map fun p => p.remaining.length).sum, rest.tail,
           !rest.isEmpty, (mems.map Packet.remaining).flatten, 0⟩ := by
  intro fuel
  induction fuel with
  | zero => intro mems rest hm _ _; omega
  | succ fuel ih =>
    intro mems rest hm hmem hrest
    match mems with
    | [] =>
      rcases hrest with rfl | ⟨q2, rest2, rfl, hq2⟩
      · simp [flushLoop]
      · obtain ⟨pl, s⟩ := q2
        cases pl with
        | close => simp [flushLoop]
        | mem d o => simp at hq2
        | file c => simp at hq2
    | p :: ms =>
      obtain ⟨pl, s⟩ := p
      have hpm := hmem ⟨pl, s⟩ (by simp)
      cases pl with
      | close => simp [isMemPkt] at hpm
      | file c => simp [isMemPkt] at hpm
      | mem d o =>
        have hmem' : ∀ p ∈ ms, isMemPkt p = true := fun p hp => hmem p (by simp [hp])
        by_cases hoff : d.drop s = []
        · have hle : d.length ≤ s := by simpa using hoff
          have hstep : flushLoop alwaysHook C (fuel+1) ((⟨.mem d o, s⟩ : Packet) :: (ms ++ rest))
              = flushLoop alwaysHook C fuel (ms ++ rest) := by
            simp [flushLoop, Packet.offer, hoff]
          have hm2 : loopMeasure (ms ++ rest) < fuel := by
            rw [List.cons_append, loopMeasure_cons] at hm; omega
          rw [List.cons_append, hstep, ih ms rest hm2 hmem' hrest]
          simp [Packet.remaining, Payload.bytes, hoff]
          omega
        · have hlt : s < d.length := by simpa using hoff
          have hnle : ¬ d.length ≤ s := not_le.mpr hlt
          have hnneg : ¬ (((d.length - s : Nat) : Int) < 0) := by omega
          have hrem2 : ((⟨.mem d o, s + (d.length - s)⟩ : Packet)).remaining = [] := by
            simp [Packet.remaining, Payload.bytes]
            omega
          have hm2 : loopMeasure ((⟨.mem d o, s + (d.length - s)⟩ : Packet) :: (ms ++ rest)) < fuel := by
            rw [List.cons_append, loopMeasure_cons] at hm
            rw [loopMeasure_cons, hrem2]
            simp [Packet.remaining, Payload.bytes] at hm ⊢
            omega
          have hmem2 : ∀ p ∈ ((⟨.mem d o, s + (d.length - s)⟩ : Packet) :: ms), isMemPkt p = true := by
            intro p hp
            rcases List.mem_cons.1 hp with rfl | hp
            · simp [isMemPkt]
            · exact hmem' p hp
          have hihr := ih (⟨.mem d o, s + (d.length - s)⟩ :: ms) rest hm2 hmem2 hrest
          rw [List.cons_append] at hihr
          have hstep : flushLoop alwaysHook C (fuel+1) ((⟨.mem d o, s⟩ : Packet) :: (ms ++ rest))
              = ⟨(flushLoop alwaysHook C fuel ((⟨.mem d o, s + (d.length - s)⟩ : Packet) :: (ms ++ rest))).fatal,
                 (d.length - s) + (flushLoop alwaysHook C fuel ((⟨.mem d o, s + (d.length - s)⟩ : Packet) :: (ms ++ rest))).sent,
                 (flushLoop alwaysHook C fuel ((⟨.mem d o, s + (d.length - s)⟩ : Packet) :: (ms ++ rest))).queue,
                 (flushLoop alwaysHook C fuel ((⟨.mem d o, s + (d.length - s)⟩ : Packet) :: (ms ++ rest))).hitClose,
                 d.drop s ++ (flushLoop alwaysHook C fuel ((⟨.mem d o, s + (d.length - s)⟩ : Packet) :: (ms ++ rest))).wire,
                 (flushLoop alwaysHook C fuel ((⟨.mem d o, s + (d.length - s)⟩ : Packet) :: (ms ++ rest))).reads⟩ := by
            simp [flushLoop, Packet.offer, alwaysHook, hoff, Packet.chunkReadCount,
                  Nat.sub_eq_zero_iff_le, hnle, hnneg]
          rw [List.cons_append, hstep, hihr]
          simp [Packet.remaining, Payload.bytes, hrem2]
          omega

theorem flushLoop_always_file (C : Nat) (hC : 0 < C) (c : List Nat) :
    ∀ fuel s, loopMeasure [⟨Payload.file c, s⟩] < fuel →
      (s % C = 0 ∨ c.length ≤ s) →
      flushLoop alwaysHook C fuel [⟨Payload.file c, s⟩]
        = ⟨false, c.length - s, [], false, c.drop s, (c.length - s + C - 1) / C⟩ := by
  intro fuel
  induction fuel with
  | zero => intro s hm _; omega
  | succ fuel ih =>
    intro s hm hs
    by_cases hdone : c.length ≤ s
    · have hoff : (⟨Payload.file c, s⟩ : Packet).offer C = [] := by
        show (c.take (C * (s / C) + C)).drop s = []
        apply List.drop_eq_nil_of_le
        simp
        omega
      have hdrop : c.drop s = [] := List.drop_eq_nil_of_le hdone
      have hstep0 : flushLoop alwaysHook C (fuel+1) [(⟨Payload.file c, s⟩ : Packet)]
          = flushLoop alwaysHook C fuel [] := by
        simp only [flushLoop]
        rw [if_pos hoff]
      rw [hstep0, flushLoop_nil]
      have h0 : c.length - s = 0 := by omega
      rw [h0, hdrop]
      have hr : (0 + C - 1) / C = 0 := Nat.div_eq_of_lt (by omega)
      rw [hr]
    · have hlt : s < c.length := by omega
      have hs0 : s % C = 0 := by
        rcases hs with h | h
        · exact h
        · omega
      have hcs : C * (s / C) = s := Nat.mul_div_cancel' (Nat.dvd_of_mod_eq_zero hs0)
      have hofeq : (⟨Payload.file c, s⟩ : Packet).offer C = (c.drop s).take C := by
        show (c.take (C * (s / C) + C)).drop s = (c.drop s).take C
        rw [hcs, List.drop_take]
        congr 1
        omega
      have hoflen : ((⟨Payload.file c, s⟩ : Packet).offer C).length = min C (c.length - s) := by
        rw [hofeq]; simp
      have hopos : (⟨Payload.file c, s⟩ : Packet).offer C ≠ [] := by
        intro hcon
        have hcl := congrArg List.length hcon
        rw [hoflen] at hcl
        simp at hcl
        omega
      have hm2 : loopMeasure [(⟨Payload.file c,
          s + ((⟨Payload.file c, s⟩ : Packet).offer C).length⟩ : Packet)] < fuel := by
        rw [loopMeasure_cons] at hm ⊢
        simp [Packet.remaining, Payload.bytes, loopMeasure, hoflen] at hm ⊢
        omega
      have hs2cond : (s + ((⟨Payload.file c, s⟩ : Packet).offer C).length) % C = 0
          ∨ c.length ≤ s + ((⟨Payload.file c, s⟩ : Packet).offer C).length := by
        rw [hoflen]
        by_cases hEc : c.length ≤ s + C
        · right; omega
        · left
          have hmin : min C (c.length - s) = C := by omega
          rw [hmin]
          simp [Nat.add_mod, hs0]
      have hihr := ih (s + ((⟨Payload.file c, s⟩ : Packet).offer C).length) hm2 hs2cond
      have h1 : ¬ alwaysHook ((⟨Payload.file c, s⟩ : Packet).offer C) < 0 := by
        simp [alwaysHook]
      have h2 : ¬ alwaysHook ((⟨Payload.file c, s⟩ : Packet).offer C) = 0 := by
        simp [alwaysHook]
        exact hopos
      have h3 : ¬ ((alwaysHook ((⟨Payload.file c, s⟩ : Packet).offer C)).toNat
          < ((⟨Payload.file c, s⟩ : Packet).offer C).length) := by
        simp [alwaysHook]
      have hrd : (⟨Payload.file c, s⟩ : Packet).chunkReadCount C = 1 := by
        simp [Packet.chunkReadCount, hs0]
      have hstep : flushLoop alwaysHook C (fuel+1) [(⟨Payload.file c, s⟩ : Packet)]
          = ⟨(flushLoop alwaysHook C fuel [(⟨Payload.file c,
                s + ((⟨Payload.file c, s⟩ : Packet).offer C).length⟩ : Packet)]).fatal,
             ((⟨Payload.file c, s⟩ : Packet).offer C).length
               + (flushLoop alwaysHook C fuel [(⟨Payload.file c,
                   s + ((⟨Payload.file c, s⟩ : Packet).offer C).length⟩ : Packet)]).sent,
             (flushLoop alwaysHook C fuel [(⟨Payload.file c,
                 s + ((⟨Payload.file c, s⟩ : Packet).offer C).length⟩ : Packet)]).queue,
             (flushLoop alwaysHook C fuel [(⟨Payload.file c,
                 s + ((⟨Payload.file c, s⟩ : Packet).offer C).length⟩ : Packet)]).hitClose,
             (⟨Payload.file c, s⟩ : Packet).offer C
               ++ (flushLoop alwaysHook C fuel [(⟨Payload.file c,
                   s + ((⟨Payload.file c, s⟩ : Packet).offer C).length⟩ : Packet)]).wire,
             1 + (flushLoop alwaysHook C fuel [(⟨Payload.file c,
                 s + ((⟨Payload.file c, s⟩ : Packet).offer C).length⟩ : Packet)]).reads⟩ := by
        simp only [flushLoop]
        rw [if_neg hopos, if_neg h1, if_neg h2, if_neg h3, hrd]
      rw [hstep, hihr]
      have hsent : ((⟨Payload.file c, s⟩ : Packet).offer C).length
          + (c.length - (s + ((⟨Payload.file c, s⟩ : Packet).offer C).length))
          = c.length - s := by
        rw [hoflen]; omega
      have hdd : c.drop (s + ((⟨Payload.file c, s⟩ : Packet).offer C).length)
          = (c.drop s).drop ((⟨Payload.file c, s⟩ : Packet).offer C).length := by
        rw [List.drop_drop]
      have hofeq2 : (⟨Payload.file c, s⟩ : Packet).offer C
          = (c.drop s).take ((⟨Payload.file c, s⟩ : Packet).offer C).length := by
        rw [hofeq]
        apply List.take_eq_take.mpr
        simp
      have hwire : (⟨Payload.file c, s⟩ : Packet).offer C
          ++ c.drop (s + ((⟨Payload.file c, s⟩ : Packet).offer C).length) = c.drop s := by
        rw [hdd]
        nth_rewrite 1 [hofeq2]
        exact List.take_append_drop _ _
      have hreads : 1 + (c.length - (s + ((⟨Payload.file c, s⟩ : Packet).offer C).length) + C - 1) / C
          = (c.length - s + C - 1) / C := by
        rw [hoflen]
        by_cases hEc : c.length ≤ s + C
        · have hy : c.length - (s + min C (c.length - s)) = 0 := by omega
          rw [hy]
          have ha : (0 + C - 1) / C = 0 := Nat.div_eq_of_lt (by omega)
          rw [ha]
          have hb : (c.length - s + C - 1) / C = 1 :=
            Nat.div_eq_of_lt_le (by omega) (by omega)
          rw [hb]
        · have hy : c.length - (s + min C (c.length - s)) = c.length - s - C := by omega
          rw [hy]
          have ha : c.length - s - C + C - 1 = (c.length - s - 1 - C) + C := by omega
          have hb : c.length - s + C - 1 = (c.length - s - 1) + C := by omega
          rw [ha, hb, Nat.add_div_right _ hC, Nat.add_div_right _ hC]
          have hc2 : c.length - s - 1 - C + C = c.length - s - 1 := by omega
          have hd2 : (c.length - s - 1 - C) / C + 1 = (c.length - s - 1) / C := by
            rw [← Nat.add_div_right _ hC, hc2]
          omega
      rw [hsent, hwire, hreads]

theorem advHead_zero (l : List Packet) : advHead 0 l = l := by
  cases l with
  | nil => rfl
  | cons p rest => simp [advHead]

theorem headRemTake_zero (l : List Packet) : headRemTake 0 l = [] := by
  cases l with
  | nil => rfl
  | cons p rest => simp [headRemTake]

theorem advance_remaining (p : Packet) (m : Nat) :
    (⟨p.payload, p.sent + m⟩ : Packet).remaining = p.remaining.drop m := by
  simp [Packet.remaining, List.drop_drop, Nat.add_comm]

theorem offer_length_le (C : Nat) (p : Packet) :
    (p.offer C).length ≤ p.remaining.length := by
  obtain ⟨pl, s⟩ := p
  cases pl with
  | mem d o => simp [Packet.offer, Packet.remaining, Payload.bytes]
  | close => simp [Packet.offer, Packet.remaining, Payload.bytes]
  | file c =>
    simp [Packet.offer, Packet.remaining, Payload.bytes]
    omega

theorem offer_as_take (C : Nat) (p : Packet) :
    p.offer C = p.remaining.take ((p.offer C).length) := by
  obtain ⟨pl, s⟩ := p
  cases pl with
  | mem d o => simp [Packet.offer, Packet.remaining, Payload.bytes]
  | close => simp [Packet.offer, Packet.remaining, Payload.bytes]
  | file c =>
    show (c.take (C * (s / C) + C)).drop s
      = (⟨Payload.file c, s⟩ : Packet).remaining.take (((⟨Payload.file c, s⟩ : Packet).offer C).length)
    have hrm : (⟨Payload.file c, s⟩ : Packet).remaining = c.drop s := rfl
    have hol : ((⟨Payload.file c, s⟩ : Packet).offer C).length
        = ((c.take (C * (s / C) + C)).drop s).length := rfl
    rw [hrm, hol, List.drop_take]
    apply List.take_eq_take.mpr
    simp

theorem offer_nil_remaining (C : Nat) (hC : 0 < C) (p : Packet) (hoff : p.offer C = []) :
    p.remaining = [] := by
  obtain ⟨pl, s⟩ := p
  cases pl with
  | mem d o => simpa [Packet.offer, Packet.remaining, Payload.bytes] using hoff
  | close => simp [Packet.remaining, Payload.bytes]
  | file c =>
    have hsE : s < C * (s / C) + C := by
      have h1 := Nat.div_add_mod s C
      have h2 := Nat.mod_lt s hC
      omega
    have hlen := congrArg List.length hoff
    simp [Packet.offer] at hlen
    show c.drop s = []
    apply List.drop_eq_nil_of_le
    omega

theorem flushLoop_cons_close (h : Hook) (C fuel : Nat) (p : Packet) (rest : List Packet)
    (hc : p.payload = Payload.close) :
    flushLoop h C (fuel+1) (p :: rest) = ⟨false, 0, rest, true, [], 0⟩ := by
  obtain ⟨pl, s⟩ := p
  cases pl with
  | close => simp [flushLoop]
  | mem d o => simp at hc
  | file c => simp at hc

theorem flushLoop_cons_notclose (h : Hook) (C fuel : Nat) (p : Packet) (rest : List Packet)
    (hnc : ¬ p.payload = Payload.close) :
    flushLoop h C (fuel+1) (p :: rest)
      = if p.offer C = [] then flushLoop h C fuel rest
        else if h (p.offer C) < 0 then ⟨true, 0, p :: rest, false, [], p.chunkReadCount C⟩
        else if h (p.offer C) = 0 then ⟨false, 0, p :: rest, false, [], p.chunkReadCount C⟩
        else if (h (p.offer C)).toNat < (p.offer C).length then
          ⟨false, (h (p.offer C)).toNat, ⟨p.payload, p.sent + (h (p.offer C)).toNat⟩ :: rest, false,
           (p.offer C).take (h (p.offer C)).toNat, p.chunkReadCount C⟩
        else
          ⟨(flushLoop h C fuel (⟨p.payload, p.sent + (p.offer C).length⟩ :: rest)).fatal,
           (p.offer C).length + (flushLoop h C fuel (⟨p.payload, p.sent + (p.offer C).length⟩ :: rest)).sent,
           (flushLoop h C fuel (⟨p.payload, p.sent + (p.offer C).length⟩ :: rest)).queue,
           (flushLoop h C fuel (⟨p.payload, p.sent + (p.offer C).length⟩ :: rest)).hitClose,
           p.offer C ++ (flushLoop h C fuel (⟨p.payload, p.sent + (p.offer C).length⟩ :: rest)).wire,
           p.chunkReadCount C + (flushLoop h C fuel (⟨p.payload, p.sent + (p.offer C).length⟩ :: rest)).reads⟩ := by
  obtain ⟨pl, s⟩ := p
  cases pl with
  | close => exact absurd rfl hnc
  | mem d o => simp only [flushLoop]
  | file c => simp only [flushLoop]

theorem flushLoop_structure (h : Hook) (C : Nat) (hC : 0 < C) :
    ∀ fuel q, loopMeasure q < fuel →
      ∃ k m, (flushLoop h C fuel q).queue = advHead m (q.drop k)
        ∧ (flushLoop h C fuel q).wire
            = ((q.take k).map Packet.remaining).flatten ++ headRemTake m (q.drop k) := by
  intro fuel
  induction fuel with
  | zero => intro q hm; omega
  | succ fuel ih =>
    intro q hm
    match q with
    | [] =>
      refine ⟨0, 0, ?_, ?_⟩ <;> simp [flushLoop, advHead, headRemTake]
    | p :: rest =>
      by_cases hnc : p.payload = Payload.close
      · rw [flushLoop_cons_close h C fuel p rest hnc]
        refine ⟨1, 0, ?_, ?_⟩
        · simp [advHead_zero]
        · have hrem : p.remaining = [] := by simp [Packet.remaining, hnc, Payload.bytes]
          simp [headRemTake_zero, hrem]
      · rw [flushLoop_cons_notclose h C fuel p rest hnc]
        by_cases hoff : p.offer C = []
        · rw [if_pos hoff]
          have hm2 : loopMeasure rest < fuel := by rw [loopMeasure_cons] at hm; omega
          obtain ⟨k, m, hq, hw⟩ := ih rest hm2
          refine ⟨k + 1, m, ?_, ?_⟩
          · simpa using hq
          · have hrem : p.remaining = [] := offer_nil_remaining C hC p hoff
            simpa [hrem] using hw
        · rw [if_neg hoff]
          by_cases hneg : h (p.offer C) < 0
          · rw [if_pos hneg]
            refine ⟨0, 0, ?_, ?_⟩ <;> simp [advHead_zero, headRemTake_zero]
          · rw [if_neg hneg]
            by_cases hzero : h (p.offer C) = 0
            · rw [if_pos hzero]
              refine ⟨0, 0, ?_, ?_⟩ <;> simp [advHead_zero, headRemTake_zero]
            · rw [if_neg hzero]
              have holen_le : (p.offer C).length ≤ p.remaining.length := offer_length_le C p
              have holen_pos : 0 < (p.offer C).length := List.length_pos.mpr hoff
              by_cases hshort : (h (p.offer C)).toNat < (p.offer C).length
              · rw [if_pos hshort]
                refine ⟨0, (h (p.offer C)).toNat, ?_, ?_⟩
                · simp [advHead]
                · simp only [List.take_zero, List.map_nil, List.flatten_nil, List.nil_append,
                             List.drop_zero, headRemTake]
                  set t := (h (p.offer C)).toNat with ht
                  rw [offer_as_take C p, List.take_take]
                  congr 1
                  omega
              · rw [if_neg hshort]
                have hm2 : loopMeasure (⟨p.payload, p.sent + (p.offer C).length⟩ :: rest) < fuel := by
                  rw [loopMeasure_cons] at hm ⊢
                  rw [advance_remaining]
                  simp
                  omega
                obtain ⟨k, m, hq, hw⟩ := ih _ hm2
                cases k with
                | zero =>
                  refine ⟨0, (p.offer C).length + m, ?_, ?_⟩
                  · show (flushLoop h C fuel (⟨p.payload, p.sent + (p.offer C).length⟩ :: rest)).queue = _
                    rw [hq]
                    simp [advHead, Nat.add_assoc]
                  · show p.offer C ++ (flushLoop h C fuel (⟨p.payload, p.sent + (p.offer C).length⟩ :: rest)).wire = _
                    rw [hw]
                    simp only [List.take_zero, List.map_nil, List.flatten_nil, List.nil_append,
                               List.drop_zero, headRemTake]
                    rw [advance_remaining, List.take_add]
                    congr 1
                    exact offer_as_take C p
                | succ j =>
                  refine ⟨j + 1, m, ?_, ?_⟩
                  · show (flushLoop h C fuel (⟨p.payload, p.sent + (p.offer C).length⟩ :: rest)).queue = _
                    rw [hq]
                    simp
                  · show p.offer C ++ (flushLoop h C fuel (⟨p.payload, p.sent + (p.offer C).length⟩ :: rest)).wire = _
                    rw [hw]
                    simp only [List.take_succ_cons, List.map_cons, List.flatten_cons,
                               List.drop_succ_cons]
                    rw [advance_remaining]
                    have hofr : p.offer C ++ p.remaining.drop ((p.offer C).length) = p.remaining := by
                      have h1 := offer_as_take C p
                      generalize hg : (p.offer C).length = t at h1 ⊢
                      rw [h1, List.take_append_drop]
                    simp only [List.append_assoc]
                    rw [← List.append_assoc (p.offer C), hofr]

theorem memQueue_isMem (ps : List (List Nat)) : ∀ p ∈ memQueue ps, isMemPkt p = true := by
  intro p hp
  simp [memQueue] at hp
  obtain ⟨d, _, rfl⟩ := hp
  simp [isMemPkt]

theorem memQueue_remaining (ps : List (List Nat)) :
    (memQueue ps).map Packet.remaining = ps := by
  simp only [memQueue, List.map_map]
  have hf : (Packet.remaining ∘ fun d => (⟨Payload.mem d true, 0⟩ : Packet)) = id := by
    funext d
    simp [Packet.remaining, Payload.bytes]
  rw [hf, List.map_id]

theorem memQueue_lens (ps : List (List Nat)) :
    ((memQueue ps).map fun p => p.remaining.length) = ps.map List.length := by
  have h := congrArg (List.map List.length) (memQueue_remaining ps)
  simpa [List.map_map, Function.comp] using h

theorem foldl_write_spec : ∀ (ps : List (List Nat)) (b : PacketBuffer),
    ps.foldl Buffer.write b = ⟨b.owner, b.queue ++ memQueue ps, b.closed⟩ := by
  intro ps
  induction ps with
  | nil => intro b; simp [memQueue]
  | cons d ds ih =>
    intro b
    rw [List.foldl_cons, ih]
    simp [Buffer.write, memQueue]

theorem foldl_enqOp_spec : ∀ (ops : List (Bool × List Nat)) (b : PacketBuffer),
    (∀ x ∈ ops, x.1 = true → x.2 ≠ []) →
    ops.foldl enqOp b = ⟨b.owner, b.queue ++ memQueue (ops.map Prod.snd), b.closed⟩ := by
  intro ops
  induction ops with
  | nil => intro b _; simp [memQueue]
  | cons x xs ih =>
    intro b hmv
    rw [List.foldl_cons, ih _ (fun y hy => hmv y (by simp [hy]))]
    have hx : enqOp b x = ⟨b.owner, b.queue ++ [⟨Payload.mem x.2 true, 0⟩], b.closed⟩ := by
      by_cases hb : x.1 = true
      · have hne : x.2 ≠ [] := hmv x (by simp) hb
        simp [enqOp, hb, Buffer.write_move, hne]
      · simp [enqOp, hb, Buffer.write]
    rw [hx]
    simp [memQueue]

theorem flushLoop_always_memsOnly (C fuel : Nat) (q : List Packet)
    (hm : loopMeasure q < fuel) (hq : ∀ p ∈ q, isMemPkt p = true) :
    flushLoop alwaysHook C fuel q
      = ⟨false, (q.map fun p => p.remaining.length).sum, [], false,
         (q.map Packet.remaining).flatten, 0⟩ := by
  have h := flushLoop_always_mems C fuel q [] (by simpa using hm) hq (Or.inl rfl)
  simpa using h

theorem flush_closed_noop (h : Hook) (C : Nat) (b : PacketBuffer) (hc : b.closed = true) :
    Buffer.flush h C b = ⟨0, b, true, [], 0⟩ := by
  unfold Buffer.flush
  rw [if_pos hc]

theorem flush_always_memBuffer (C : Nat) (b : PacketBuffer) (hc : b.closed = false)
    (hq : ∀ p ∈ b.queue, isMemPkt p = true) :
    Buffer.flush alwaysHook C b
      = ⟨(((b.queue.map fun p => p.remaining.length).sum : Nat) : Int),
         ⟨b.owner, [], false⟩, false, (b.queue.map Packet.remaining).flatten, 0⟩ := by
  unfold Buffer.flush
  rw [if_neg (by simp [hc])]
  rw [flushLoop_always_memsOnly C _ _ (by omega) hq]
  rfl

theorem flush_always_memCloseBuffer (C : Nat) (b : PacketBuffer) (hc : b.closed = false)
    (mems tail2 : List Packet) (hbq : b.queue = mems ++ ⟨Payload.close, 0⟩ :: tail2)
    (hq : ∀ p ∈ mems, isMemPkt p = true) :
    Buffer.flush alwaysHook C b
      = ⟨(((mems.map fun p => p.remaining.length).sum : Nat) : Int),
         ⟨b.owner, tail2, true⟩, true, (mems.map Packet.remaining).flatten, 0⟩ := by
  unfold Buffer.flush
  rw [if_neg (by simp [hc])]
  rw [hbq]
  rw [flushLoop_always_mems C _ mems (⟨Payload.close, 0⟩ :: tail2) (by omega) hq
      (Or.inr ⟨⟨Payload.close, 0⟩, tail2, rfl, rfl⟩)]
  rfl

/-- C1: for every sequence of `write` / `write_move` calls enqueueing
payloads P1..Pn (a moved payload being non-null, since a null or empty
moved block is the close sentinel), one `flush` against the
always-writable sink delivers exactly the concatenation P1..Pn in
insertion order byte for byte, reports that byte count, drains the
queue, and a further `flush` delivers nothing more. -/
theorem C1_write_flush_fifo_concat (o C : Nat) (ops : List (Bool × List Nat))
    (hmv : ∀ x ∈ ops, x.1 = true → x.2 ≠ []) :
    (Buffer.flush alwaysHook C (ops.foldl enqOp (Buffer.create o))).wire
        = (ops.map Prod.snd).flatten
    ∧ (Buffer.flush alwaysHook C (ops.foldl enqOp (Buffer.create o))).buf.queue = []
    ∧ (Buffer.flush alwaysHook C (ops.foldl enqOp (Buffer.create o))).ret
        = (((ops.map Prod.snd).flatten.length : Nat) : Int)
    ∧ (Buffer.flush alwaysHook C
        (Buffer.flush alwaysHook C (ops.foldl enqOp (Buffer.create o))).buf).wire = [] := by
  have hb : ops.foldl enqOp (Buffer.create o)
      = ⟨o, memQueue (ops.map Prod.snd), false⟩ := by
    rw [foldl_enqOp_spec ops (Buffer.create o) hmv]
    simp [Buffer.create]
  rw [hb, flush_always_memBuffer C _ rfl (memQueue_isMem _)]
  refine ⟨?_, ?_, ?_, ?_⟩
  · simp [memQueue_remaining]
  · rfl
  · simp [memQueue_lens, memQueue_remaining, List.length_flatten]
  · rw [flush_always_memBuffer C _ rfl (by intro p hp; simp at hp)]
    simp

/-- C1 witness: the concrete sequence write [1,2] then write_move [3]
flushed on the always-writable sink delivers [1,2,3]. -/
theorem C1_witness :
    (Buffer.flush alwaysHook 4 ([(false, [1,2]), (true, [3])].foldl enqOp (Buffer.create 0))).wire
        = [1,2,3]
    ∧ (Buffer.flush alwaysHook 4 ([(false, [1,2]), (true, [3])].foldl enqOp (Buffer.create 0))).buf.queue
        = [] := by
  have h := C1_write_flush_fifo_concat 0 4 [(false, [1,2]), (true, [3])] (by decide)
  exact ⟨by simpa using h.1, h.2.1⟩

/-- C2: on a buffer whose head packet Pk is partially sent (0 < s bytes
of payload pk already flushed) followed by not-yet-started packets ps,
`write_next` (and, for a non-null block, `write_move_next`) of Pnext
makes one always-writable `flush` deliver the remaining bytes of Pk,
then Pnext, then ps in order — the in-flight packet is never split or
reordered and Pnext precedes every not-yet-started packet. -/
theorem C2_write_next_after_inflight (o C s : Nat) (pk pnext : List Nat)
    (ps : List (List Nat)) (h1 : 0 < s) (h2 : s < pk.length) :
    (Buffer.flush alwaysHook C (Buffer.write_next
        ⟨o, ⟨Payload.mem pk true, s⟩ :: memQueue ps, false⟩ pnext)).wire
      = pk.drop s ++ pnext ++ ps.flatten
    ∧ (Buffer.flush alwaysHook C (Buffer.write_next
        ⟨o, ⟨Payload.mem pk true, s⟩ :: memQueue ps, false⟩ pnext)).buf.queue = []
    ∧ (pnext ≠ [] → (Buffer.flush alwaysHook C (Buffer.write_move_next
        ⟨o, ⟨Payload.mem pk true, s⟩ :: memQueue ps, false⟩ (some pnext))).wire
      = pk.drop s ++ pnext ++ ps.flatten) := by
  have hwn : Buffer.write_next ⟨o, ⟨Payload.mem pk true, s⟩ :: memQueue ps, false⟩ pnext
      = ⟨o, ⟨Payload.mem pk true, s⟩ :: ⟨Payload.mem pnext true, 0⟩ :: memQueue ps, false⟩ := by
    simp [Buffer.write_next, h1]
  have hmems : ∀ p ∈ (⟨Payload.mem pk true, s⟩ : Packet) :: ⟨Payload.mem pnext true, 0⟩ :: memQueue ps,
      isMemPkt p = true := by
    intro p hp
    rcases List.mem_cons.1 hp with rfl | hp
    · simp [isMemPkt]
    · rcases List.mem_cons.1 hp with rfl | hp
      · simp [isMemPkt]
      · exact memQueue_isMem ps p hp
  refine ⟨?_, ?_, ?_⟩
  · rw [hwn, flush_always_memBuffer C _ rfl hmems]
    simp [Packet.remaining, Payload.bytes, memQueue_remaining]
  · rw [hwn, flush_always_memBuffer C _ rfl hmems]
  · intro hpn
    have hwm : Buffer.write_move_next
          ⟨o, ⟨Payload.mem pk true, s⟩ :: memQueue ps, false⟩ (some pnext)
        = ⟨o, ⟨Payload.mem pk true, s⟩ :: ⟨Payload.mem pnext true, 0⟩ :: memQueue ps, false⟩ := by
      simp [Buffer.write_move_next, Buffer.write_move_next.movePacket, h1, hpn]
    rw [hwm, flush_always_memBuffer C _ rfl hmems]
    simp [Packet.remaining, Payload.bytes, memQueue_remaining]

/-- C2 witness: head [1,2,3] with 1 byte already sent, queued [9];
write_next [5,6] delivers [2,3]  then [5,6] then [9]. -/
theorem C2_witness :
    (Buffer.flush alwaysHook 4 (Buffer.write_next
        ⟨0, ⟨Payload.mem [1,2,3] true, 1⟩ :: memQueue [[9]], false⟩ [5,6])).wire
      = [2,3,5,6,9]
    ∧ (Buffer.flush alwaysHook 4 (Buffer.write_move_next
        ⟨0, ⟨Payload.mem [1,2,3] true, 1⟩ :: memQueue [[9]], false⟩ (some [5,6]))).wire
      = [2,3,5,6,9] := by
  have h := C2_write_next_after_inflight 0 4 1 [1,2,3] [5,6] [[9]] (by decide) (by decide)
  exact ⟨by simpa using h.1, by simpa using h.2.2 (by decide)⟩

/-- C5: a null `write_move` is the very same operation as
`close_when_done`; after queueing payloads ps and the close sentinel,
one always-writable `flush` delivers exactly ps, signals close, marks
the buffer closed, and every later `flush`, whatever hook and chunk
size, delivers nothing and keeps signalling close. -/
theorem C5_null_write_move_closes (o C : Nat) (ps : List (List Nat)) :
    Buffer.write_move (ps.foldl Buffer.write (Buffer.create o)) none
        = Buffer.close_when_done (ps.foldl Buffer.write (Buffer.create o))
    ∧ (Buffer.flush alwaysHook C
        (Buffer.close_when_done (ps.foldl Buffer.write (Buffer.create o)))).wire = ps.flatten
    ∧ (Buffer.flush alwaysHook C
        (Buffer.close_when_done (ps.foldl Buffer.write (Buffer.create o)))).sclose = true
    ∧ (Buffer.flush alwaysHook C
        (Buffer.close_when_done (ps.foldl Buffer.write (Buffer.create o)))).buf.closed = true
    ∧ ∀ (h2 : Hook) (C2 : Nat),
        (Buffer.flush h2 C2 (Buffer.flush alwaysHook C
          (Buffer.close_when_done (ps.foldl Buffer.write (Buffer.create o)))).buf).wire = []
        ∧ (Buffer.flush h2 C2 (Buffer.flush alwaysHook C
          (Buffer.close_when_done (ps.foldl Buffer.write (Buffer.create o)))).buf).sclose = true := by
  have hb : Buffer.close_when_done (ps.foldl Buffer.write (Buffer.create o))
      = ⟨o, memQueue ps ++ ⟨Payload.close, 0⟩ :: [], false⟩ := by
    rw [foldl_write_spec ps (Buffer.create o)]
    simp [Buffer.close_when_done, Buffer.create]
  have hfl := flush_always_memCloseBuffer C ⟨o, memQueue ps ++ ⟨Payload.close, 0⟩ :: [], false⟩
      rfl (memQueue ps) [] rfl (memQueue_isMem ps)
  refine ⟨rfl, ?_, ?_, ?_, ?_⟩
  · rw [hb, hfl]
    simp [memQueue_remaining]
  · rw [hb, hfl]
  · rw [hb, hfl]
  · intro h2 C2
    rw [hb, hfl]
    rw [flush_closed_noop h2 C2 _ rfl]
    exact ⟨rfl, rfl⟩

/-- C7: a file of S bytes enqueued through `sendfile` and flushed to
completion on the always-writable sink is read in exactly
ceil(S / C) chunks of size C, its bytes reach the sink unchanged and
in order, the packet leaves the queue — the model of the automatic
fclose — with no further caller action, and `clear` also empties the
buffer when invoked before completion. -/
theorem C7_sendfile_chunks (o C : Nat) (content : List Nat) (hC : 0 < C) :
    (Buffer.flush alwaysHook C (Buffer.sendfile (Buffer.create o) content)).wire = content
    ∧ (Buffer.flush alwaysHook C (Buffer.sendfile (Buffer.create o) content)).reads
        = (content.length + C - 1) / C
    ∧ (Buffer.flush alwaysHook C (Buffer.sendfile (Buffer.create o) content)).buf.queue = []
    ∧ (Buffer.flush alwaysHook C (Buffer.sendfile (Buffer.create o) content)).ret
        = ((content.length : Nat) : Int)
    ∧ Buffer.is_empty (Buffer.clear (Buffer.sendfile (Buffer.create o) content)) = true := by
  have hb : Buffer.sendfile (Buffer.create o) content
      = ⟨o, [⟨Payload.file content, 0⟩], false⟩ := by
    simp [Buffer.sendfile, Buffer.create]
  have hfl : Buffer.flush alwaysHook C ⟨o, [⟨Payload.file content, 0⟩], false⟩
      = ⟨((content.length : Nat) : Int), ⟨o, [], false⟩, false, content,
         (content.length + C - 1) / C⟩ := by
    unfold Buffer.flush
    rw [if_neg (by simp)]
    rw [flushLoop_always_file C hC content _ 0 (Nat.lt_succ_self _) (Or.inl (by simp))]
    simp
  rw [hb, hfl]
  refine ⟨rfl, rfl, rfl, rfl, rfl⟩

/-- C7 witness: a 3-byte file with chunk size 2 is read in 2 chunks and
delivered whole. -/
theorem C7_witness :
    (Buffer.flush alwaysHook 2 (Buffer.sendfile (Buffer.create 0) [1,2,3])).wire = [1,2,3]
    ∧ (Buffer.flush alwaysHook 2 (Buffer.sendfile (Buffer.create 0) [1,2,3])).reads = 2
    ∧ (Buffer.flush alwaysHook 2 (Buffer.sendfile (Buffer.create 0) [1,2,3])).buf.queue = [] := by
  have h := C7_sendfile_chunks 0 2 [1,2,3] (by decide)
  exact ⟨h.1, by simpa using h.2.1, h.2.2.1⟩

/-- C6: for any buffer state, hook and positive chunk size, one `flush`
call removes exactly a prefix of the queue and advances the offset of
the new head by some m: the surviving packets are the original suffix
in order (a removed packet never reappears, no offset ever decreases),
and the bytes put on the wire are exactly the concatenation of the
full unsent remainders of the removed packets followed by the first m
unsent bytes of the surviving head — so a packet is removed only once
every one of its bytes has been transmitted. -/
theorem C6_flush_removal_invariant (h : Hook) (C : Nat) (b : PacketBuffer) (hC : 0 < C) :
    ∃ k m, (Buffer.flush h C b).buf.queue = advHead m (b.queue.drop k)
      ∧ (Buffer.flush h C b).wire
          = ((b.queue.take k).map Packet.remaining).flatten ++ headRemTake m (b.queue.drop k) := by
  by_cases hc : b.closed = true
  · rw [flush_closed_noop h C b hc]
    refine ⟨0, 0, ?_, ?_⟩
    · simp [advHead_zero]
    · simp [headRemTake_zero]
  · unfold Buffer.flush
    rw [if_neg hc]
    obtain ⟨k, m, hq, hw⟩ := flushLoop_structure h C hC (loopMeasure b.queue + 1) b.queue
      (Nat.lt_succ_self _)
    exact ⟨k, m, by simpa using hq, by simpa using hw⟩

/-- C6 witness: the invariant instantiated on the concrete two-packet
buffer and the hook that fails fatally on the second packet. -/
theorem C6_witness :
    ∃ k m, (Buffer.flush hookFatalOn2 4 bTwo).buf.queue = advHead m (bTwo.queue.drop k)
      ∧ (Buffer.flush hookFatalOn2 4 bTwo).wire
          = ((bTwo.queue.take k).map Packet.remaining).flatten
            ++ headRemTake m (bTwo.queue.drop k) :=
  C6_flush_removal_invariant hookFatalOn2 4 bTwo (by decide)

/-- C3 counterexample: with the hook that consumes [1] but reports a
fatal error on [2], flushing the queue [1], [2] returns -1 — so the
hook did return -1 during the call — yet the first packet was fully
sent, removed from the queue, and its byte is on the wire: the call is
not free of offset advancement and packet removal. -/
theorem C3_counterexample :
    (Buffer.flush hookFatalOn2 4 bTwo).ret = -1
    ∧ (Buffer.flush hookFatalOn2 4 bTwo).wire = [1]
    ∧ (Buffer.flush hookFatalOn2 4 bTwo).buf.queue.length = 1
    ∧ bTwo.queue.length = 2 := by decide

/-- C3 amended: when the hook reports a fatal result on the first block
offered in a `flush` call (the head packet being incomplete), `flush`
stops immediately, returns -1, delivers nothing, and leaves the buffer
— queue, offsets and flags — exactly as it was; packets fully sent
earlier in the same call, however, stay removed. -/
theorem C3_fatal_first_offer (hk : Hook) (C : Nat) (b : PacketBuffer)
    (p : Packet) (rest : List Packet) (hb : b.closed = false) (hq : b.queue = p :: rest)
    (hnc : ¬ p.payload = Payload.close) (hoff : ¬ p.offer C = [])
    (hneg : hk (p.offer C) < 0) :
    (Buffer.flush hk C b).ret = -1 ∧ (Buffer.flush hk C b).buf = b
    ∧ (Buffer.flush hk C b).wire = [] := by
  unfold Buffer.flush
  rw [if_neg (by simp [hb])]
  rw [hq, flushLoop_cons_notclose hk C _ p rest hnc, if_neg hoff, if_pos hneg]
  refine ⟨rfl, ?_, rfl⟩
  obtain ⟨o, q, c⟩ := b
  simp only at hq hb
  subst hq hb
  rfl

/-- C3 witness: a hook that always reports -1 on the one-packet buffer
holding [5]. -/
theorem C3_witness :
    (Buffer.flush (fun _ => (-1 : Int)) 4 ⟨0, [⟨Payload.mem [5] true, 0⟩], false⟩).ret = -1
    ∧ (Buffer.flush (fun _ => (-1 : Int)) 4 ⟨0, [⟨Payload.mem [5] true, 0⟩], false⟩).buf
        = ⟨0, [⟨Payload.mem [5] true, 0⟩], false⟩
    ∧ (Buffer.flush (fun _ => (-1 : Int)) 4 ⟨0, [⟨Payload.mem [5] true, 0⟩], false⟩).wire = [] :=
  C3_fatal_first_offer (fun _ => (-1 : Int)) 4 ⟨0, [⟨Payload.mem [5] true, 0⟩], false⟩
    ⟨Payload.mem [5] true, 0⟩ [] rfl rfl (by decide) (by decide) (by decide)

/-- C4 counterexample: with the hook that consumes [1] but reports no
progress on [2], flushing the queue [1], [2] returns 1 (not 0) and the
first packet was removed: after partial progress the call neither
returns 0 nor leaves the queue and offsets unchanged. -/
theorem C4_counterexample :
    (Buffer.flush hookBlockOn2 4 bTwo).ret = 1
    ∧ ¬ (Buffer.flush hookBlockOn2 4 bTwo).ret = 0
    ∧ (Buffer.flush hookBlockOn2 4 bTwo).wire = [1]
    ∧ (Buffer.flush hookBlockOn2 4 bTwo).buf.queue.length = 1
    ∧ bTwo.queue.length = 2 := by decide

/-- C4 amended: when the hook reports 0 — no progress now — on the
first block offered in a `flush` call (the head packet being
incomplete), `flush` returns 0, which is distinguishable from the
fatal -1, delivers nothing, and leaves the buffer — queue, offsets and
flags — exactly as it was; packets fully sent earlier in the same call,
however, stay removed and counted. -/
theorem C4_transient_first_offer (hk : Hook) (C : Nat) (b : PacketBuffer)
    (p : Packet) (rest : List Packet) (hb : b.closed = false) (hq : b.queue = p :: rest)
    (hnc : ¬ p.payload = Payload.close) (hoff : ¬ p.offer C = [])
    (hneg : ¬ hk (p.offer C) < 0) (hz : hk (p.offer C) = 0) :
    (Buffer.flush hk C b).ret = 0 ∧ ¬ (Buffer.flush hk C b).ret = -1
    ∧ (Buffer.flush hk C b).buf = b ∧ (Buffer.flush hk C b).wire = [] := by
  unfold Buffer.flush
  rw [if_neg (by simp [hb])]
  rw [hq, flushLoop_cons_notclose hk C _ p rest hnc, if_neg hoff, if_neg hneg, if_pos hz]
  refine ⟨rfl, by simp, ?_, rfl⟩
  obtain ⟨o, q, c⟩ := b
  simp only at hq hb
  subst hq hb
  rfl

/-- C4 witness: a hook that always reports 0 on the one-packet buffer
holding [5]. -/
theorem C4_witness :
    (Buffer.flush (fun _ => (0 : Int)) 4 ⟨0, [⟨Payload.mem [5] true, 0⟩], false⟩).ret = 0
    ∧ ¬ (Buffer.flush (fun _ => (0 : Int)) 4 ⟨0, [⟨Payload.mem [5] true, 0⟩], false⟩).ret = -1
    ∧ (Buffer.flush (fun _ => (0 : Int)) 4 ⟨0, [⟨Payload.mem [5] true, 0⟩], false⟩).buf
        = ⟨0, [⟨Payload.mem [5] true, 0⟩], false⟩
    ∧ (Buffer.flush (fun _ => (0 : Int)) 4 ⟨0, [⟨Payload.mem [5] true, 0⟩], false⟩).wire = [] :=
  C4_transient_first_offer (fun _ => (0 : Int)) 4 ⟨0, [⟨Payload.mem [5] true, 0⟩], false⟩
    ⟨Payload.mem [5] true, 0⟩ [] rfl rfl (by decide) (by decide) (by decide) (by decide)

/-- C8: `is_empty` is true right after `create`, false right after any
successful `write`, `write_move`, `write_next`, `write_move_next` or
`sendfile`, true again once the queued data has been fully flushed or
after `clear`, and it holds exactly when the queue carries no packet —
and, file packets living in the queue, no open file either. -/
theorem C8_is_empty_characterisation :
    (∀ o : Nat, Buffer.is_empty (Buffer.create o) = true)
    ∧ (∀ (b : PacketBuffer) (d : List Nat), Buffer.is_empty (Buffer.write b d) = false)
    ∧ (∀ (b : PacketBuffer) (d : Option (List Nat)),
        Buffer.is_empty (Buffer.write_move b d) = false)
    ∧ (∀ (b : PacketBuffer) (d : List Nat), Buffer.is_empty (Buffer.write_next b d) = false)
    ∧ (∀ (b : PacketBuffer) (d : Option (List Nat)),
        Buffer.is_empty (Buffer.write_move_next b d) = false)
    ∧ (∀ (b : PacketBuffer) (c : List Nat), Buffer.is_empty (Buffer.sendfile b c) = false)
    ∧ (∀ (o C : Nat) (ps : List (List Nat)),
        Buffer.is_empty (Buffer.flush alwaysHook C
          (ps.foldl Buffer.write (Buffer.create o))).buf = true)
    ∧ (∀ b : PacketBuffer, Buffer.is_empty (Buffer.clear b) = true)
    ∧ (∀ b : PacketBuffer, Buffer.is_empty b = true ↔ b.queue = []) := by
  refine ⟨?_, ?_, ?_, ?_, ?_, ?_, ?_, ?_, ?_⟩
  · intro o
    simp [Buffer.is_empty, Buffer.create]
  · intro b d
    simp [Buffer.is_empty, Buffer.write]
  · intro b d
    rcases d with _ | d
    · simp [Buffer.is_empty, Buffer.write_move]
    · by_cases hd : d = [] <;> simp [Buffer.is_empty, Buffer.write_move, hd]
  · intro b d
    rcases hq : b.queue with _ | ⟨p, rest⟩
    · simp [Buffer.is_empty, Buffer.write_next, hq]
    · by_cases hs : 0 < p.sent <;> simp [Buffer.is_empty, Buffer.write_next, hq, hs]
  · intro b d
    rcases hq : b.queue with _ | ⟨p, rest⟩
    · simp [Buffer.is_empty, Buffer.write_move_next, hq]
    · by_cases hs : 0 < p.sent <;> simp [Buffer.is_empty, Buffer.write_move_next, hq, hs]
  · intro b c
    simp [Buffer.is_empty, Buffer.sendfile]
  · intro o C ps
    have hb : ps.foldl Buffer.write (Buffer.create o) = ⟨o, memQueue ps, false⟩ := by
      rw [foldl_write_spec ps (Buffer.create o)]
      simp [Buffer.create]
    rw [hb, flush_always_memBuffer C _ rfl (memQueue_isMem ps)]
    simp [Buffer.is_empty]
  · intro b
    simp [Buffer.is_empty, Buffer.clear]
  · intro b
    simp [Buffer.is_empty, List.isEmpty_iff]

/-- C10 counterexample: the buffer created with argument 5 delivers the
whole 7-byte first packet, not the packet minus its first 5 bytes: the
numeric argument of `create` is the owner context, no pre-sent offset
is applied to the first packet. -/
theorem C10_counterexample :
    (Buffer.flush alwaysHook 64 (Buffer.write (Buffer.create 5) [10,20,30,40,50,60,70])).wire
      = [10,20,30,40,50,60,70]
    ∧ ¬ (Buffer.flush alwaysHook 64 (Buffer.write (Buffer.create 5) [10,20,30,40,50,60,70])).wire
      = [60,70] := by decide

/-- C10 amended: the argument of `create` is the owning server context
(declared `server_pt owner` in `buffer.h`); it sets no pre-sent offset,
and whatever its value k the first packet enqueued afterwards is
delivered in full by `flush`. -/
theorem C10_create_owner_full_delivery (k C : Nat) (d : List Nat) :
    (Buffer.flush alwaysHook C (Buffer.write (Buffer.create k) d)).wire = d
    ∧ (Buffer.create k).owner = k
    ∧ (Buffer.create k).queue = [] := by
  refine ⟨?_, rfl, rfl⟩
  have hb : Buffer.write (Buffer.create k) d = ⟨k, memQueue [d], false⟩ := by
    simp [Buffer.write, Buffer.create, memQueue]
  rw [hb, flush_always_memBuffer C _ rfl (memQueue_isMem [d])]
  simp [memQueue_remaining]
